import Mathlib

/-!
Shallow embedding of the BinJSON envelope library (binjson.js):
envelope codec, security manager, chunker, orchestrator, and the
WebSocket stream reassembler, together with theorems checking the
specification's claims against this embedding.

Bytes are modelled as `Nat` values below 256 in `List Nat` buffers.
External collaborators (the msgpack value codec, zlib, the AES cipher,
the AJV validator) are passed as explicit function parameters exactly at
the call sites where binjson.js invokes the corresponding library; a
concrete executable model of the msgpack subset the library exercises
(`mpEnc` / `mpDec`) is provided for evaluating the code on concrete
inputs.
-/

/-- Decidable equality for thrown-or-returned results, so that concrete
runs of the embedded functions can be checked by `decide`. -/
instance instDecEqExcept {ε α : Type} [DecidableEq ε] [DecidableEq α] :
    DecidableEq (Except ε α) := fun x y =>
  match x, y with
  | .ok a, .ok b =>
    if h : a = b then isTrue (congrArg Except.ok h)
    else isFalse (fun hh => h (Except.ok.inj hh))
  | .error a, .error b =>
    if h : a = b then isTrue (congrArg Except.error h)
    else isFalse (fun hh => h (Except.error.inj hh))
  | .ok _, .error _ => isFalse (fun hh => Except.noConfusion hh)
  | .error _, .ok _ => isFalse (fun hh => Except.noConfusion hh)

mutual
/-- JSON-like structured values handled by the library: the dynamic
values that msgpack-lite encodes and decodes (JS objects are ordered
string-keyed maps). Floating-point numbers are outside the model. -/
inductive Value where
  | null : Value
  | bool (b : Bool) : Value
  | int (n : Int) : Value
  | str (s : String) : Value
  | arr (xs : VList) : Value
  | map (kvs : KVList) : Value
  deriving DecidableEq, Repr

/-- A list of values (array elements), spelled out to keep the mutual
induction elementary. -/
inductive VList where
  | nil : VList
  | cons (hd : Value) (tl : VList) : VList
  deriving DecidableEq, Repr

/-- An ordered association list of string keys to values (a JS object). -/
inductive KVList where
  | nil : KVList
  | cons (k : String) (v : Value) (tl : KVList) : KVList
  deriving DecidableEq, Repr
end

/-- First value bound to a key in an object, scanning left to right. -/
def KVList.lookup : KVList → String → Option Value
  | .nil, _ => none
  | .cons k v tl, key => if k = key then some v else tl.lookup key

/-- Property lookup on a JS value: defined on objects, `undefined`
(here `none`) elsewhere. -/
def Value.lookup : Value → String → Option Value
  | .map kvs, k => kvs.lookup k
  | _, _ => none

/-- UTF-8 bytes of one character. -/
def utf8Char (c : Char) : List Nat :=
  let n := c.toNat
  if n < 0x80 then [n]
  else if n < 0x800 then [0xC0 + n / 64, 0x80 + n % 64]
  else if n < 0x10000 then [0xE0 + n / 4096, 0x80 + n / 64 % 64, 0x80 + n % 64]
  else [0xF0 + n / 262144, 0x80 + n / 4096 % 64, 0x80 + n / 64 % 64, 0x80 + n % 64]

/-- UTF-8 byte sequence of a string. -/
def utf8Bytes (s : String) : List Nat :=
  (s.data.map utf8Char).flatten

/-- Lenient UTF-8 decoding of a byte list into characters, fuelled for
structural termination (fuel bounds the number of decoded characters). -/
def utf8DecodeGo : Nat → List Nat → Option (List Char)
  | _, [] => some []
  | 0, _ => none
  | f + 1, b :: rest =>
    if b < 0x80 then do
      let cs ← utf8DecodeGo f rest
      some (Char.ofNat b :: cs)
    else if b < 0xE0 then
      match rest with
      | b2 :: r => do
        let cs ← utf8DecodeGo f r
        some (Char.ofNat ((b - 0xC0) * 64 + (b2 - 0x80)) :: cs)
      | [] => none
    else if b < 0xF0 then
      match rest with
      | b2 :: b3 :: r => do
        let cs ← utf8DecodeGo f r
        some (Char.ofNat (((b - 0xE0) * 64 + (b2 - 0x80)) * 64 + (b3 - 0x80)) :: cs)
      | _ => none
    else
      match rest with
      | b2 :: b3 :: b4 :: r => do
        let cs ← utf8DecodeGo f r
        some (Char.ofNat ((((b - 0xF0) * 64 + (b2 - 0x80)) * 64 + (b3 - 0x80)) * 64
          + (b4 - 0x80)) :: cs)
      | _ => none

/-- UTF-8 decoding of a whole byte list to a string. -/
def utf8Decode (b : List Nat) : Option String :=
  (utf8DecodeGo (b.length + 1) b).map fun cs => ⟨cs⟩

/-- Big-endian bytes of a 16-bit value. -/
def be16 (n : Nat) : List Nat := [n / 256 % 256, n % 256]

/-- Big-endian bytes of a 32-bit value: the layout `writeUInt32BE` and
`readUInt32BE` use for the schema id and metadata length. -/
def toBE32 (n : Nat) : List Nat :=
  [n / 16777216 % 256, n / 65536 % 256, n / 256 % 256, n % 256]

/-- Big-endian bytes of a 64-bit value. -/
def be64 (n : Nat) : List Nat :=
  toBE32 (n / 4294967296 % 4294967296) ++ toBE32 (n % 4294967296)

/-- Node's `buf.readUInt32BE(off)`: big-endian 32-bit read, failing
(`ERR_OUT_OF_RANGE`) when fewer than four bytes start at `off`. -/
def readUInt32BE (b : List Nat) (off : Nat) : Option Nat :=
  if off + 4 ≤ b.length then
    some (((b.getD off 0 * 256 + b.getD (off + 1) 0) * 256
      + b.getD (off + 2) 0) * 256 + b.getD (off + 3) 0)
  else none

/-- Number of elements of a value list. -/
def VList.length : VList → Nat
  | .nil => 0
  | .cons _ tl => 1 + tl.length

/-- Number of entries of an object. -/
def KVList.length : KVList → Nat
  | .nil => 0
  | .cons _ _ tl => 1 + tl.length

/-- msgpack encoding of an integer (msgpack-lite's choice of the
shortest signed/unsigned form). -/
def mpEncInt (n : Int) : List Nat :=
  if 0 ≤ n then
    let m := n.toNat
    if m ≤ 0x7F then [m]
    else if m ≤ 0xFF then [0xCC, m]
    else if m ≤ 0xFFFF then 0xCD :: be16 m
    else if m ≤ 0xFFFFFFFF then 0xCE :: toBE32 m
    else 0xCF :: be64 m
  else
    if -32 ≤ n then [(n + 256).toNat]
    else if -128 ≤ n then [0xD0, (n + 256).toNat]
    else if -32768 ≤ n then 0xD1 :: be16 (n + 65536).toNat
    else if -2147483648 ≤ n then 0xD2 :: toBE32 (n + 4294967296).toNat
    else 0xD3 :: be64 (n + 18446744073709551616).toNat

/-- msgpack encoding of a string: UTF-8 bytes behind a fixstr/str8/
str16/str32 length marker. -/
def mpEncStr (s : String) : List Nat :=
  let b := utf8Bytes s
  let len := b.length
  if len ≤ 31 then (0xA0 + len) :: b
  else if len ≤ 0xFF then 0xD9 :: len :: b
  else if len ≤ 0xFFFF then 0xDA :: be16 len ++ b
  else 0xDB :: toBE32 len ++ b

/-- msgpack array-length marker. -/
def mpArrHeader (n : Nat) : List Nat :=
  if n ≤ 15 then [0x90 + n]
  else if n ≤ 0xFFFF then 0xDC :: be16 n
  else 0xDD :: toBE32 n

/-- msgpack map-length marker. -/
def mpMapHeader (n : Nat) : List Nat :=
  if n ≤ 15 then [0x80 + n]
  else if n ≤ 0xFFFF then 0xDE :: be16 n
  else 0xDF :: toBE32 n

mutual
/-- Concrete model of `msgpack.encode` on the value subset the library
uses. -/
def mpEnc : Value → List Nat
  | .null => [0xC0]
  | .bool false => [0xC2]
  | .bool true => [0xC3]
  | .int n => mpEncInt n
  | .str s => mpEncStr s
  | .arr xs => mpArrHeader xs.length ++ mpEncVList xs
  | .map kvs => mpMapHeader kvs.length ++ mpEncKVList kvs

/-- Encoding of consecutive array elements. -/
def mpEncVList : VList → List Nat
  | .nil => []
  | .cons v tl => mpEnc v ++ mpEncVList tl

/-- Encoding of consecutive object entries, key before value. -/
def mpEncKVList : KVList → List Nat
  | .nil => []
  | .cons k v tl => mpEncStr k ++ mpEnc v ++ mpEncKVList tl
end

mutual
/-- Concrete model of `msgpack.decode`'s inner parser: decodes one value
off the front of the buffer and returns the remaining bytes. Fuelled for
structural termination; `none` models the library throwing on malformed
or truncated input. -/
def mpDecAux : Nat → List Nat → Option (Value × List Nat)
  | 0, _ => none
  | _ + 1, [] => none
  | f + 1, b :: rest =>
    if b ≤ 0x7F then some (.int (b : Int), rest)
    else if b ≤ 0x8F then do
      let (kvs, r) ← mpDecPairs f (b - 0x80) rest
      some (.map kvs, r)
    else if b ≤ 0x9F then do
      let (xs, r) ← mpDecVals f (b - 0x90) rest
      some (.arr xs, r)
    else if b ≤ 0xBF then
      let len := b - 0xA0
      if rest.length < len then none
      else do
        let s ← utf8Decode (rest.take len)
        some (.str s, rest.drop len)
    else if b = 0xC0 then some (.null, rest)
    else if b = 0xC2 then some (.bool false, rest)
    else if b = 0xC3 then some (.bool true, rest)
    else if b = 0xCC then
      match rest with
      | x :: r => some (.int (x : Int), r)
      | [] => none
    else if b = 0xCD then
      match rest with
      | x :: y :: r => some (.int ((x * 256 + y : Nat) : Int), r)
      | _ => none
    else if b = 0xCE then
      match rest with
      | x :: y :: z :: w :: r =>
        some (.int ((((x * 256 + y) * 256 + z) * 256 + w : Nat) : Int), r)
      | _ => none
    else if b = 0xD0 then
      match rest with
      | x :: r => some (.int (if 128 ≤ x then (x : Int) - 256 else (x : Int)), r)
      | [] => none
    else if b = 0xD1 then
      match rest with
      | x :: y :: r =>
        let m : Nat := x * 256 + y
        some (.int (if 32768 ≤ m then (m : Int) - 65536 else (m : Int)), r)
      | _ => none
    else if b = 0xD2 then
      match rest with
      | x :: y :: z :: w :: r =>
        let m : Nat := ((x * 256 + y) * 256 + z) * 256 + w
        some (.int (if 2147483648 ≤ m then (m : Int) - 4294967296 else (m : Int)), r)
      | _ => none
    else if b = 0xD9 then
      match rest with
      | len :: r =>
        if r.length < len then none
        else do
          let s ← utf8Decode (r.take len)
          some (.str s, r.drop len)
      | [] => none
    else if b = 0xDA then
      match rest with
      | x :: y :: r =>
        let len := x * 256 + y
        if r.length < len then none
        else do
          let s ← utf8Decode (r.take len)
          some (.str s, r.drop len)
      | _ => none
    else if b = 0xDC then
      match rest with
      | x :: y :: r => do
        let (xs, r2) ← mpDecVals f (x * 256 + y) r
        some (.arr xs, r2)
      | _ => none
    else if b = 0xDE then
      match rest with
      | x :: y :: r => do
        let (kvs, r2) ← mpDecPairs f (x * 256 + y) r
        some (.map kvs, r2)
      | _ => none
    else if 0xE0 ≤ b then some (.int ((b : Int) - 256), rest)
    else none

/-- Decodes `n` consecutive array elements. -/
def mpDecVals : Nat → Nat → List Nat → Option (VList × List Nat)
  | 0, _, _ => none
  | _ + 1, 0, b => some (.nil, b)
  | f + 1, n + 1, b => do
    let (v, r) ← mpDecAux f b
    let (vs, r2) ← mpDecVals f n r
    some (.cons v vs, r2)

/-- Decodes `n` consecutive object entries; msgpack-lite builds a JS
object, so only string keys are representable. -/
def mpDecPairs : Nat → Nat → List Nat → Option (KVList × List Nat)
  | 0, _, _ => none
  | _ + 1, 0, b => some (.nil, b)
  | f + 1, n + 1, b => do
    let (k, r) ← mpDecAux f b
    match k with
    | .str ks => do
      let (v, r2) ← mpDecAux f r
      let (kvs, r3) ← mpDecPairs f n r2
      some (.cons ks v kvs, r3)
    | _ => none
end

/-- Concrete model of `msgpack.decode`: decodes the first value in the
buffer and ignores any trailing bytes (msgpack-lite behaviour). -/
def mpDec (b : List Nat) : Option Value :=
  (mpDecAux (2 * b.length + 16) b).map fun p => p.1

/-- Character of one Base64 sextet. -/
def b64Char (i : Nat) : Char :=
  if i < 26 then Char.ofNat (65 + i)
  else if i < 52 then Char.ofNat (97 + (i - 26))
  else if i < 62 then Char.ofNat (48 + (i - 52))
  else if i = 62 then '+'
  else '/'

/-- Base64 text of a byte list, three bytes to four characters with
trailing padding. -/
def base64EncodeGo : List Nat → List Char
  | [] => []
  | [x] => [b64Char (x / 4), b64Char (x % 4 * 16), '=', '=']
  | [x, y] => [b64Char (x / 4), b64Char (x % 4 * 16 + y / 16), b64Char (y % 16 * 4), '=']
  | x :: y :: z :: rest =>
    b64Char (x / 4) :: b64Char (x % 4 * 16 + y / 16) :: b64Char (y % 16 * 4 + z / 64)
      :: b64Char (z % 64) :: base64EncodeGo rest

/-- Base64 rendering of a byte list (CryptoJS `enc.Base64.stringify`). -/
def base64Encode (b : List Nat) : String := ⟨base64EncodeGo b⟩

/-- Sextet of one Base64 character. -/
def b64Index (c : Char) : Option Nat :=
  let n := c.toNat
  if 65 ≤ n ∧ n ≤ 90 then some (n - 65)
  else if 97 ≤ n ∧ n ≤ 122 then some (n - 97 + 26)
  else if 48 ≤ n ∧ n ≤ 57 then some (n - 48 + 52)
  else if c = '+' then some 62
  else if c = '/' then some 63
  else none

/-- Base64 decoding of the characters before any padding. -/
def base64DecodeGo : List Char → Option (List Nat)
  | [] => some []
  | [_] => none
  | [a, b] => do
    let x ← b64Index a
    let y ← b64Index b
    some [x * 4 + y / 16]
  | [a, b, c] => do
    let x ← b64Index a
    let y ← b64Index b
    let z ← b64Index c
    some [x * 4 + y / 16, y % 16 * 16 + z / 4]
  | a :: b :: c :: d :: rest => do
    let x ← b64Index a
    let y ← b64Index b
    let z ← b64Index c
    let w ← b64Index d
    let tl ← base64DecodeGo rest
    some ((x * 4 + y / 16) :: (y % 16 * 16 + z / 4) :: (z % 4 * 64 + w) :: tl)

/-- Byte list decoded from Base64 text (CryptoJS `enc.Base64.parse`,
which stops at the first padding character). -/
def base64Decode (s : String) : Option (List Nat) :=
  base64DecodeGo (s.data.takeWhile (fun c => c ≠ '='))

/-- The 2-byte magic tag `MAGIC_NUMBER` (0x42 0x4A, "BJ"). -/
def MAGIC_NUMBER : List Nat := [0x42, 0x4A]

/-- Default schema identifier `DEFAULT_SCHEMA_ID`. -/
def DEFAULT_SCHEMA_ID : Nat := 1

/-- Default chunk size `CHUNK_SIZE`. -/
def CHUNK_SIZE : Nat := 1024

/-- The envelope: 6-byte header, metadata object, payload bytes
(class `BinaryJSON`). -/
structure BinaryJSON where
  header : List Nat
  metadata : Value
  payload : List Nat
  deriving DecidableEq, Repr

/-- `BinaryJSON.fromDict(data, schemaId, compress)`: builds the metadata
object `schema_id`/`timestamp`/`compression` in insertion order, msgpack
encodes the value, deflates it when `compress`, and builds the header as
the magic tag followed by the big-endian schema id (`writeUInt32BE`
requires the schema id to fit 32 bits). The msgpack encoder `enc`,
zlib's `deflateSync` and `Date.now()` are external and passed in. -/
def BinaryJSON.fromDict (enc : Value → List Nat) (deflate : List Nat → List Nat)
    (now : Nat) (data : Value) (schemaId : Nat) (compress : Bool) : BinaryJSON :=
  let metadata : Value :=
    .map (.cons "schema_id" (.int (schemaId : Int))
      (.cons "timestamp" (.int (now : Int))
        (.cons "compression" (.str (if compress then "zlib" else "none")) .nil)))
  let payload0 := enc data
  let payload := if compress then deflate payload0 else payload0
  ⟨MAGIC_NUMBER ++ toBE32 schemaId, metadata, payload⟩

/-- Failures of `toDict`: `inflateSync` throwing on bad compressed data,
or `msgpack.decode` throwing on bad bytes. The library defines no
dedicated error class for either. -/
inductive DecodeErr where
  | zlibError : DecodeErr
  | msgpackError : DecodeErr
  deriving DecidableEq, Repr

/-- `BinaryJSON.toDict()`: inflates the payload exactly when the
metadata `compression` property is the string `zlib`, then msgpack
decodes. `dec` and `inflate` stand for `msgpack.decode` and
`zlib.inflateSync` (`none` = throw). -/
def BinaryJSON.toDict (dec : List Nat → Option Value)
    (inflate : List Nat → Option (List Nat)) (e : BinaryJSON) :
    Except DecodeErr Value :=
  if e.metadata.lookup "compression" = some (.str "zlib") then
    match inflate e.payload with
    | none => .error .zlibError
    | some p =>
      match dec p with
      | some v => .ok v
      | none => .error .msgpackError
  else
    match dec e.payload with
    | some v => .ok v
    | none => .error .msgpackError

/-- `SchemaValidator.validate(data)`: throws `SchemaError` when the
compiled AJV validation function rejects, returns `true` otherwise.
The compiled rule set is the external black box `validateFn`. -/
def SchemaValidator.validate (validateFn : Value → Bool) (data : Value) :
    Except Unit Bool :=
  if validateFn data then .ok true else .error ()

/-- The one error class raised by `SecurityManager` (`SecurityError`,
wrapping whatever the crypto layer threw). -/
inductive SecurityError where
  | securityError : SecurityError
  deriving DecidableEq, Repr

/-- Lenient model of `buffer.toString('utf8')`: exact on valid UTF-8
(the sealed-payload path only ever feeds it ASCII Base64 text), code
points as a fallback where Node would emit replacement characters. -/
def bufToString (b : List Nat) : String :=
  (utf8Decode b).getD ⟨b.map Char.ofNat⟩

/-- `SecurityManager.encrypt(data)`: CryptoJS AES under `{iv}` with the
UTF-8-parsed key, then `Buffer.concat([Buffer.from(iv.toString(),
'hex'), Buffer.from(encrypted.toString(), 'utf8')])`. The first part is
the 16 raw IV bytes (hex render then hex parse); the second is the
UTF-8 text of the Base64 rendering of the ciphertext, because
`CipherParams.toString()` with a WordArray key is Base64 of the raw
ciphertext. The cipher core `aesE` (key bytes → IV bytes → plaintext →
ciphertext) and the random 16-byte `iv` are external. -/
def SecurityManager.encrypt (aesE : List Nat → List Nat → List Nat → List Nat)
    (key : String) (iv : List Nat) (data : List Nat) : List Nat :=
  iv ++ utf8Bytes (base64Encode (aesE (utf8Bytes key) iv data))

/-- `SecurityManager.decrypt(data)`: takes `data.slice(0, 32)` as the IV
(hex render then hex parse is the identity on those bytes; CBC consumes
only the first 16-byte block of the supplied IV), takes
`data.slice(32).toString('utf8')` as a Base64 ciphertext string, AES
decrypts (`aesD`, `none` = throw), and converts the plaintext WordArray
through `toString(Utf8)` (throws on invalid UTF-8) back to a Buffer.
Every failure is wrapped as `SecurityError`. -/
def SecurityManager.decrypt (aesD : List Nat → List Nat → List Nat → Option (List Nat))
    (key : String) (data : List Nat) : Except SecurityError (List Nat) :=
  let ivBytes := data.take 32
  match base64Decode (bufToString (data.drop 32)) with
  | none => .error .securityError
  | some ct =>
    match aesD (utf8Bytes key) (ivBytes.take 16) ct with
    | none => .error .securityError
    | some p =>
      match utf8Decode p with
      | none => .error .securityError
      | some s => .ok (utf8Bytes s)

/-- The dynamic return type of `DataHandler.process`: the raw buffer in
batch mode, an array of buffers in streaming mode. -/
inductive ProcessResult where
  | bytes (b : List Nat) : ProcessResult
  | chunkList (cs : List (List Nat)) : ProcessResult
  deriving DecidableEq, Repr

/-- The streaming loop of `DataHandler.process`: repeatedly push
`data.slice(i, i + chunkSize)` while `i < data.length`, stepping `i` by
`chunkSize`. Fuelled structurally; `data.length` iterations suffice for
any positive chunk size (for chunk size 0 the JS loop never
terminates). -/
def chunkifyGo : Nat → Nat → List Nat → List (List Nat)
  | 0, _, _ => []
  | _ + 1, _, [] => []
  | f + 1, n, b => b.take n :: chunkifyGo f n (b.drop n)

/-- Ordered `chunkSize`-byte slices of a buffer. -/
def chunkify (n : Nat) (b : List Nat) : List (List Nat) :=
  chunkifyGo b.length n b

/-- `DataHandler.process(data)`: returns the buffer itself when
`this.mode === 'batch'`, otherwise the list of slices. -/
def DataHandler.process (mode : String) (chunkSize : Nat) (data : List Nat) :
    ProcessResult :=
  if mode = "batch" then .bytes data
  else .chunkList (chunkify chunkSize data)

/-- Failure of `BinJSON.serialize`: the schema validator throwing
`SchemaError`. -/
inductive SerializeErr where
  | schemaError : SerializeErr
  deriving DecidableEq, Repr

/-- `BinJSON.serialize(data, schemaId, compress, encrypt)`: validates
first when a schema is configured (`validateFn = some f`), then builds
the envelope with `BinaryJSON.fromDict`, then overwrites the payload
with `security.encrypt(payload)` when asked to. The codec, compressor
and cipher are the explicit parameters `enc`, `deflate`, `encryptFn`;
rejection happens before any of them is applied. -/
def BinJSON.serialize (validateFn : Option (Value → Bool))
    (enc : Value → List Nat) (deflate : List Nat → List Nat)
    (encryptFn : List Nat → List Nat) (now : Nat) (data : Value)
    (schemaId : Nat) (compress encryptFlag : Bool) :
    Except SerializeErr BinaryJSON :=
  match validateFn with
  | some f =>
    if f data then
      let bj := BinaryJSON.fromDict enc deflate now data schemaId compress
      .ok (if encryptFlag then { bj with payload := encryptFn bj.payload } else bj)
    else .error .schemaError
  | none =>
    let bj := BinaryJSON.fromDict enc deflate now data schemaId compress
    .ok (if encryptFlag then { bj with payload := encryptFn bj.payload } else bj)

/-- Failures of `BinJSON.deserialize`: the security manager throwing on
decryption, or `toDict` throwing while decoding. -/
inductive DeserializeErr where
  | securityError : DeserializeErr
  | decodeError (e : DecodeErr) : DeserializeErr
  deriving DecidableEq, Repr

/-- `BinJSON.deserialize(binaryJson, decrypt)`: when `decrypt` is true
the envelope's `payload` field is reassigned in place to
`security.decrypt(payload)` before `toDict` runs. The heap effect is
modelled by returning the envelope object's final state alongside the
result; when decryption throws, the assignment never executes and the
envelope is unchanged. -/
def BinJSON.deserialize (decryptFn : List Nat → Except SecurityError (List Nat))
    (dec : List Nat → Option Value) (inflate : List Nat → Option (List Nat))
    (bj : BinaryJSON) (decryptFlag : Bool) :
    Except DeserializeErr Value × BinaryJSON :=
  if decryptFlag then
    match decryptFn bj.payload with
    | .error _ => (.error .securityError, bj)
    | .ok p =>
      let bj2 := { bj with payload := p }
      ((BinaryJSON.toDict dec inflate bj2).mapError .decodeError, bj2)
  else
    ((BinaryJSON.toDict dec inflate bj).mapError .decodeError, bj)

/-- `saveToFile(binaryJson, filepath)` writes
`Buffer.concat([header, msgpack.encode(metadata), payload])`; the model
is the byte sequence handed to `fs.writeFileSync`. -/
def saveToFile (enc : Value → List Nat) (bj : BinaryJSON) : List Nat :=
  bj.header ++ enc bj.metadata ++ bj.payload

/-- Failures of `loadFromFile`: `readUInt32BE` out of range, or
`msgpack.decode` throwing. -/
inductive LoadErr where
  | rangeError : LoadErr
  | decodeError : LoadErr
  deriving DecidableEq, Repr

/-- `loadFromFile(filepath)` on the bytes read back: header =
`data.slice(0, 6)`, metadata length = `data.readUInt32BE(6)`, metadata
= `msgpack.decode(data.slice(6, 6 + metadataLength))`, payload =
`data.slice(6 + metadataLength)`. -/
def loadFromFile (dec : List Nat → Option Value) (data : List Nat) :
    Except LoadErr BinaryJSON :=
  match readUInt32BE data 6 with
  | none => .error .rangeError
  | some metadataLength =>
    match dec ((data.drop 6).take metadataLength) with
    | none => .error .decodeError
    | some metadata =>
      .ok ⟨data.take 6, metadata, data.drop (6 + metadataLength)⟩

/-- The per-connection mutable state of `BinJSONWebSocket`: the
`chunkBuffer` array and the `currentBinaryJSON` field (initially
`null`). -/
structure BinJSONWebSocket where
  chunkBuffer : List (List Nat)
  currentBinaryJSON : Option BinaryJSON
  deriving DecidableEq, Repr

/-- A fresh `BinJSONWebSocket` state as set up in the constructor. -/
def wsInit : BinJSONWebSocket := ⟨[], none⟩

/-- Exceptions the inbound-message handler can raise: `readUInt32BE`
range error on a short first chunk, `msgpack.decode` failure on the
metadata slice, or the `TypeError` of assigning `.payload` on a `null`
`currentBinaryJSON`. -/
inductive WSErr where
  | rangeError : WSErr
  | decodeError : WSErr
  | typeError : WSErr
  deriving DecidableEq, Repr

/-- The `ws.onmessage` handler: pushes the chunk onto `chunkBuffer`;
when it is the first chunk ("Assume the first chunk contains the header
and metadata"), reads the header as its first 6 bytes, the metadata
length at offset 6, decodes metadata from `slice(6, 6 + metadataLength)`
and keeps the bytes past `6 + metadataLength` as payload; every later
chunk is concatenated onto the current envelope's payload. Mutations
performed before a throw persist, so the handler returns the new state
together with the exception, if any. -/
def BinJSONWebSocket.onmessage (dec : List Nat → Option Value)
    (s : BinJSONWebSocket) (chunk : List Nat) : BinJSONWebSocket × Option WSErr :=
  let buf := s.chunkBuffer ++ [chunk]
  if buf.length = 1 then
    match readUInt32BE chunk 6 with
    | none => ({ s with chunkBuffer := buf }, some .rangeError)
    | some metadataLength =>
      match dec ((chunk.drop 6).take metadataLength) with
      | none => ({ s with chunkBuffer := buf }, some .decodeError)
      | some metadata =>
        (⟨buf, some ⟨chunk.take 6, metadata, buf.flatten.drop (6 + metadataLength)⟩⟩,
          none)
  else
    match s.currentBinaryJSON with
    | none => ({ s with chunkBuffer := buf }, some .typeError)
    | some e =>
      (⟨buf, some { e with payload := e.payload ++ chunk }⟩, none)

/-- Delivering a sequence of inbound chunks to the handler in order; an
exception in one handler call does not stop later deliveries (each
WebSocket message event is dispatched independently). -/
def BinJSONWebSocket.feed (dec : List Nat → Option Value)
    (s : BinJSONWebSocket) (chunks : List (List Nat)) : BinJSONWebSocket :=
  chunks.foldl (fun st c => (BinJSONWebSocket.onmessage dec st c).1) s

/-- The buffer `BinJSONWebSocket.send` hands to the chunker:
`Buffer.concat([binaryJSON.header, msgpack.encode(binaryJSON.metadata),
binaryJSON.payload])`. -/
def BinJSONWebSocket.sendBuffer (enc : Value → List Nat) (bj : BinaryJSON) :
    List Nat :=
  bj.header ++ enc bj.metadata ++ bj.payload

/-- Metadata object built by `fromDict` for schema id 1, timestamp 0,
no compression. -/
def metaNone : Value :=
  .map (.cons "schema_id" (.int 1)
    (.cons "timestamp" (.int 0)
      (.cons "compression" (.str "none") .nil)))

/-- A small concrete envelope: magic ‖ schema id 1 header, `metaNone`
metadata, three payload bytes. -/
def sampleEnvelope : BinaryJSON := ⟨MAGIC_NUMBER ++ toBE32 1, metaNone, [1, 2, 3]⟩

/-- The value `{id: 1, name: 'Alice'}` from the repository's examples. -/
def vAlice : Value := .map (.cons "id" (.int 1) (.cons "name" (.str "Alice") .nil))

/-- An identity cipher core: a stand-in satisfying the black-box
round-trip contract of the external AES layer, used to evaluate the
sealed-payload framing in isolation from the cipher. -/
def aesId : List Nat → List Nat → List Nat → List Nat := fun _ _ p => p

/-- Inverse of `aesId`, total and never failing. -/
def aesIdD : List Nat → List Nat → List Nat → Option (List Nat) := fun _ _ c => some c

/-- A fixed 16-byte IV standing in for `WordArray.random(16)`. -/
def iv0 : List Nat := List.replicate 16 0xAB

/-- A 16-byte all-zero plaintext. -/
def b0 : List Nat := List.replicate 16 0

/-- An 8-byte first chunk: valid magic and schema id, but fewer than the
10 bytes the spec's reassembler waits for. -/
def shortChunk : List Nat := [0x42, 0x4A, 0, 0, 0, 1, 0, 0]

/-- A first chunk laid out exactly as the spec's envelope format:
6-byte header, then a big-endian 32-bit metadata length, then the
encoded metadata. -/
def claimLayoutChunk : List Nat :=
  MAGIC_NUMBER ++ toBE32 1 ++ toBE32 (mpEnc metaNone).length ++ mpEnc metaNone

/-- An envelope whose compression tag is the unrecognized `gzip` and
whose payload is the plain msgpack encoding of the number 7. -/
def gzipEnvelope : BinaryJSON :=
  ⟨MAGIC_NUMBER ++ toBE32 1,
    .map (.cons "schema_id" (.int 1)
      (.cons "timestamp" (.int 0)
        (.cons "compression" (.str "gzip") .nil))),
    mpEnc (.int 7)⟩

example : mpDec (mpEnc (.str "zlib")) = some (.str "zlib") := by decide
example : base64Decode "AAAAAA==" = some [0, 0, 0, 0] := by decide
example : base64Encode b0 = "AAAAAAAAAAAAAAAAAAAAAA==" := by decide

/-- C1: the claim asserts the serialized envelope carries a big-endian
metadata length at bytes 6..10 followed by the metadata at bytes
10..10+L, and that `loadFromFile` parses that same layout back. The
code violates this: `saveToFile` writes header ‖ msgpack(metadata) ‖
payload with no length field, so bytes 6..10 of the output are the
first four msgpack metadata bytes (0x83 0xA9 0x73 0x63) rather than a
length; `loadFromFile` then reads those as a ≈2.2·10⁹ length and
returns an envelope whose payload is empty, so save/load does not
round-trip the sample envelope. -/
theorem saveToFile_loadFromFile_layout_mismatch :
    ((saveToFile mpEnc sampleEnvelope).drop 6).take 4 = [0x83, 0xA9, 0x73, 0x63]
    ∧ ((saveToFile mpEnc sampleEnvelope).drop 6).take 4
      ≠ toBE32 (mpEnc sampleEnvelope.metadata).length
    ∧ loadFromFile mpDec (saveToFile mpEnc sampleEnvelope)
      = .ok ⟨sampleEnvelope.header, sampleEnvelope.metadata, []⟩
    ∧ loadFromFile mpDec (saveToFile mpEnc sampleEnvelope) ≠ .ok sampleEnvelope := by
  exact ⟨by decide, by decide, by decide, by decide⟩

/-- C2: the claim asserts that feeding the chunks produced by the send
path back through the inbound-message handler reconstructs an identical
envelope. The code violates this: with chunk size 1024 the sample
envelope travels as one chunk, the handler misreads the metadata length
from the first msgpack bytes, and the reassembled envelope has an empty
payload where the original had three bytes. -/
theorem send_reassemble_loses_payload :
    DataHandler.process "stream" 1024 (BinJSONWebSocket.sendBuffer mpEnc sampleEnvelope)
      = .chunkList (chunkify 1024 (BinJSONWebSocket.sendBuffer mpEnc sampleEnvelope))
    ∧ (BinJSONWebSocket.feed mpDec wsInit
        (chunkify 1024 (BinJSONWebSocket.sendBuffer mpEnc sampleEnvelope))).currentBinaryJSON
      = some ⟨sampleEnvelope.header, sampleEnvelope.metadata, []⟩
    ∧ (BinJSONWebSocket.feed mpDec wsInit
        (chunkify 1024 (BinJSONWebSocket.sendBuffer mpEnc sampleEnvelope))).currentBinaryJSON
      ≠ some sampleEnvelope := by
  exact ⟨by decide, by decide, by decide⟩

/-- C5: the claim asserts `decrypt (encrypt b) = b` for every byte
sequence under the same key. The code violates this even with a cipher
core satisfying the black-box round-trip contract (here the identity
cipher): `encrypt` emits 16 raw IV bytes followed by Base64 text of the
ciphertext, while `decrypt` discards 32 bytes before reading the
ciphertext, losing the first 16 Base64 characters; on the 16-byte
all-zero input the round trip returns 4 bytes instead of the original
16. -/
theorem encrypt_decrypt_framing_broken :
    (∀ k iv p, aesIdD k iv (aesId k iv p) = some p)
    ∧ SecurityManager.decrypt aesIdD "key" (SecurityManager.encrypt aesId "key" iv0 b0)
      = .ok [0, 0, 0, 0]
    ∧ ([0, 0, 0, 0] : List Nat) ≠ b0 := by
  exact ⟨fun _ _ _ => rfl, by decide, by decide⟩

/-- C6: the claim asserts the sealed payload is 16 raw IV bytes
followed immediately by the raw ciphertext with no textual re-encoding,
and that `decrypt` splits at byte 16. In the code the first 16 bytes
are indeed the raw IV, but the remainder is the UTF-8 text of the
Base64 rendering of the ciphertext, not the raw ciphertext; and
`decrypt` splits at byte 32, not 16 — overwriting bytes 16..32 of the
sealed payload does not change the decryption result at all. -/
theorem sealed_payload_layout_diverges :
    (SecurityManager.encrypt aesId "key" iv0 b0).take 16 = iv0
    ∧ (SecurityManager.encrypt aesId "key" iv0 b0).drop 16
      = utf8Bytes (base64Encode (aesId (utf8Bytes "key") iv0 b0))
    ∧ (SecurityManager.encrypt aesId "key" iv0 b0).drop 16 ≠ aesId (utf8Bytes "key") iv0 b0
    ∧ SecurityManager.decrypt aesIdD "key"
        ((SecurityManager.encrypt aesId "key" iv0 b0).take 16
          ++ List.replicate 16 0x5A
          ++ (SecurityManager.encrypt aesId "key" iv0 b0).drop 32)
      = SecurityManager.decrypt aesIdD "key" (SecurityManager.encrypt aesId "key" iv0 b0) := by
  exact ⟨by decide, by decide, by decide, by decide⟩

/-- C3 counterexample: the claim says the handler parses the header and
metadata length only once at least 10 bytes are buffered, and decodes
metadata from the bytes following the length field. On an 8-byte first
chunk the handler instead attempts the length read at once and throws a
range error; and on a first chunk laid out exactly as the claim's
format (header ‖ length ‖ metadata) it decodes the metadata slice
starting at byte 6 — which begins with the length field's 0x00 — and
produces the value 0 instead of the metadata object. -/
theorem onmessage_parses_below_ten_bytes :
    (BinJSONWebSocket.onmessage mpDec wsInit shortChunk).2 = some WSErr.rangeError
    ∧ ((BinJSONWebSocket.onmessage mpDec wsInit claimLayoutChunk).1.currentBinaryJSON.map
        BinaryJSON.metadata) = some (.int 0)
    ∧ some (Value.int 0) ≠ some metaNone := by
  exact ⟨by decide, by decide, by decide⟩

/-- C3 amended: the handler appends each inbound chunk to the buffer,
but parses the first chunk unconditionally rather than waiting for 10
buffered bytes — a first chunk shorter than 10 bytes makes the length
read throw; when the read succeeds the metadata is decoded from bytes
6..6+L of the first chunk (a slice that starts at the length field, not
after it) and the bytes past 6+L become the initial payload; every
subsequent chunk is appended directly to the payload with no further
parsing (the result does not depend on the decoder at all). -/
theorem onmessage_first_chunk_parses_immediately :
    (∀ dec c, c.length < 10 →
      BinJSONWebSocket.onmessage dec wsInit c
        = (⟨[c], none⟩, some WSErr.rangeError))
    ∧ (∀ dec c L m, readUInt32BE c 6 = some L →
        dec ((c.drop 6).take L) = some m →
        BinJSONWebSocket.onmessage dec wsInit c
          = (⟨[c], some ⟨c.take 6, m, c.drop (6 + L)⟩⟩, none))
    ∧ (∀ dec dec' s c e, s.currentBinaryJSON = some e → s.chunkBuffer ≠ [] →
        BinJSONWebSocket.onmessage dec s c
          = (⟨s.chunkBuffer ++ [c], some { e with payload := e.payload ++ c }⟩, none)
        ∧ BinJSONWebSocket.onmessage dec s c = BinJSONWebSocket.onmessage dec' s c) := by
  refine ⟨?_, ?_, ?_⟩
  · intro dec c h
    have hr : readUInt32BE c 6 = none := by
      simp only [readUInt32BE, ite_eq_right_iff]
      intro hle
      omega
    simp [BinJSONWebSocket.onmessage, wsInit, hr]
  · intro dec c L m h1 h2
    simp [BinJSONWebSocket.onmessage, wsInit, h1, h2]
  · intro dec dec' s c e he hb
    cases hcb : s.chunkBuffer with
    | nil => exact absurd hcb hb
    | cons x xs =>
      constructor
      · simp [BinJSONWebSocket.onmessage, hcb, he]
      · simp [BinJSONWebSocket.onmessage, hcb, he]

/-- C3 witness: the amended transition evaluated on the 8-byte chunk,
on the claim-layout chunk, and on a follow-up chunk in the accumulating
state. -/
theorem onmessage_first_chunk_parses_immediately_witness :
    BinJSONWebSocket.onmessage mpDec wsInit shortChunk
      = (⟨[shortChunk], none⟩, some WSErr.rangeError)
    ∧ BinJSONWebSocket.onmessage mpDec wsInit claimLayoutChunk
      = (⟨[claimLayoutChunk],
          some ⟨claimLayoutChunk.take 6, .int 0, claimLayoutChunk.drop (6 + 40)⟩⟩, none)
    ∧ BinJSONWebSocket.onmessage mpDec ⟨[shortChunk], some sampleEnvelope⟩ [9]
      = (⟨[shortChunk, [9]],
          some { sampleEnvelope with payload := sampleEnvelope.payload ++ [9] }⟩, none) := by
  obtain ⟨h1, h2, h3⟩ := onmessage_first_chunk_parses_immediately
  exact ⟨h1 mpDec shortChunk (by decide),
    h2 mpDec claimLayoutChunk 40 (.int 0) (by decide) (by decide),
    (h3 mpDec mpDec ⟨[shortChunk], some sampleEnvelope⟩ [9] sampleEnvelope rfl
      (by decide)).1⟩

/-- C7 counterexample: on an envelope whose compression tag is the
unrecognized `gzip` and whose payload is a valid encoding, `toDict`
returns the decoded value instead of failing — there is no
`CorruptEnvelope` path (and no such error class exists in the code);
the unrecognized tag is simply treated as `none`, even under an
always-failing inflate. -/
theorem toDict_unknown_tag_returns_value :
    BinaryJSON.toDict mpDec (fun _ => none) gzipEnvelope = .ok (.int 7) := by decide

/-- C7 amended: for any compression tag other than exactly `zlib` the
payload is msgpack-decoded directly — returning the value when the
payload decodes and the decoder's own error when it does not — and the
decompressor is never consulted. -/
theorem toDict_unknown_tag_amended (dec : List Nat → Option Value)
    (inflate inflate' : List Nat → Option (List Nat)) (e : BinaryJSON)
    (h : e.metadata.lookup "compression" ≠ some (.str "zlib")) :
    BinaryJSON.toDict dec inflate e
      = (match dec e.payload with
         | some v => .ok v
         | none => .error .msgpackError)
    ∧ BinaryJSON.toDict dec inflate e = BinaryJSON.toDict dec inflate' e := by
  constructor <;> simp [BinaryJSON.toDict, h]

/-- C7 witness: the amended behaviour evaluated on the `gzip`-tagged
envelope with an always-failing and an identity inflate. -/
theorem toDict_unknown_tag_amended_witness :
    BinaryJSON.toDict mpDec (fun _ => none) gzipEnvelope
      = (match mpDec gzipEnvelope.payload with
         | some v => .ok v
         | none => .error DecodeErr.msgpackError)
    ∧ BinaryJSON.toDict mpDec (fun _ => none) gzipEnvelope
      = BinaryJSON.toDict mpDec (fun b => some b) gzipEnvelope := by
  exact toDict_unknown_tag_amended mpDec (fun _ => none) (fun b => some b) gzipEnvelope
    (by decide)

/-- C4: round-trip of the envelope codec. For any value whose msgpack
encoding decodes back to itself and any compressor/decompressor pair
that round-trips on that encoding (both are external black boxes),
`toDict` applied to `fromDict data schemaId compress` returns the
original value, for either compress flag: `fromDict` tags the metadata
`zlib`/`none` exactly as `toDict` tests it, and the two apply
compression and decompression in inverse order around the codec. -/
theorem fromDict_toDict_roundtrip (enc : Value → List Nat) (dec : List Nat → Option Value)
    (deflate : List Nat → List Nat) (inflate : List Nat → Option (List Nat))
    (now sid : Nat) (v : Value) (compress : Bool)
    (hdec : dec (enc v) = some v)
    (hz : inflate (deflate (enc v)) = some (enc v)) :
    BinaryJSON.toDict dec inflate (BinaryJSON.fromDict enc deflate now v sid compress)
      = .ok v := by
  cases compress <;>
    simp [BinaryJSON.fromDict, BinaryJSON.toDict, Value.lookup, KVList.lookup, hdec, hz]

/-- C4 witness: the round-trip evaluated on `{id: 1, name: 'Alice'}`
with the concrete msgpack model and an identity compressor. -/
theorem fromDict_toDict_roundtrip_witness :
    mpDec (mpEnc vAlice) = some vAlice
    ∧ BinaryJSON.toDict mpDec (fun b => some b)
        (BinaryJSON.fromDict mpEnc (fun b => b) 0 vAlice 1 true) = .ok vAlice := by
  exact ⟨by decide,
    fromDict_toDict_roundtrip mpEnc mpDec (fun b => b) (fun b => some b) 0 1 vAlice true
      (by decide) (by decide)⟩

/-- C9: schema gating. When a schema is configured and the compiled
validation function rejects the value, `serialize` throws `SchemaError`,
and its result is independent of the codec, the compressor, the cipher,
the clock, the schema id and the compress/encrypt flags — none of them
is reached for a rejected value. -/
theorem serialize_schema_gating (f : Value → Bool)
    (enc enc' : Value → List Nat) (deflate deflate' : List Nat → List Nat)
    (encryptFn encryptFn' : List Nat → List Nat) (now now' sid sid' : Nat)
    (data : Value) (compress compress' encFlag encFlag' : Bool)
    (h : f data = false) :
    BinJSON.serialize (some f) enc deflate encryptFn now data sid compress encFlag
      = .error .schemaError
    ∧ BinJSON.serialize (some f) enc deflate encryptFn now data sid compress encFlag
      = BinJSON.serialize (some f) enc' deflate' encryptFn' now' data sid' compress' encFlag'
    ∧ SchemaValidator.validate f data = .error () := by
  simp [BinJSON.serialize, SchemaValidator.validate, h]

/-- C9 witness: gating evaluated with an always-rejecting validator on
`{id: 1, name: 'Alice'}`. -/
theorem serialize_schema_gating_witness :
    BinJSON.serialize (some (fun _ => false)) mpEnc (fun b => b) (fun b => b) 0 vAlice 1
        true true
      = .error .schemaError
    ∧ SchemaValidator.validate (fun _ => false) vAlice = .error () := by
  have h := serialize_schema_gating (fun _ => false) mpEnc mpEnc (fun b => b) (fun b => b)
    (fun b => b) (fun b => b) 0 0 1 1 vAlice true true true true rfl
  exact ⟨h.1, h.2.2⟩

/-- C10: `deserialize` with decrypt=true reassigns the envelope's
payload in place to the decrypted bytes before decoding, so the
caller's envelope leaves the call mutated; a second decrypt=true
`deserialize` of that same envelope object feeds the already-decrypted
payload to the security manager again, not the original sealed
payload. -/
theorem deserialize_mutates_envelope
    (decryptFn : List Nat → Except SecurityError (List Nat))
    (dec : List Nat → Option Value) (inflate : List Nat → Option (List Nat))
    (bj : BinaryJSON) (p p2 : List Nat)
    (h : decryptFn bj.payload = .ok p) (h2 : decryptFn p = .ok p2) :
    (BinJSON.deserialize decryptFn dec inflate bj true).2 = { bj with payload := p }
    ∧ (BinJSON.deserialize decryptFn dec inflate bj true).1
      = (BinaryJSON.toDict dec inflate { bj with payload := p }).mapError .decodeError
    ∧ (BinJSON.deserialize decryptFn dec inflate
        (BinJSON.deserialize decryptFn dec inflate bj true).2 true).2
      = { bj with payload := p2 } := by
  simp [BinJSON.deserialize, h, h2]

/-- C10 witness: the in-place payload mutation and the double-decrypt
behaviour evaluated on the sample envelope with a decryptor that
appends a marker byte. -/
theorem deserialize_mutates_envelope_witness :
    (BinJSON.deserialize (fun b => .ok (b ++ [9])) mpDec (fun b => some b)
        sampleEnvelope true).2
      = { sampleEnvelope with payload := [1, 2, 3, 9] }
    ∧ (BinJSON.deserialize (fun b => .ok (b ++ [9])) mpDec (fun b => some b)
        (BinJSON.deserialize (fun b => .ok (b ++ [9])) mpDec (fun b => some b)
          sampleEnvelope true).2 true).2
      = { sampleEnvelope with payload := [1, 2, 3, 9, 9] } := by
  have h := deserialize_mutates_envelope (fun b => .ok (b ++ [9])) mpDec (fun b => some b)
    sampleEnvelope [1, 2, 3, 9] [1, 2, 3, 9, 9] (by decide) (by decide)
  exact ⟨h.1, h.2.2⟩

/-- Fuel exhaustion aside, chunking the empty buffer yields no chunks. -/
theorem chunkifyGo_nil (f n : Nat) : chunkifyGo f n [] = [] := by
  cases f <;> rfl

/-- With enough fuel and a positive chunk size, the slices concatenate
back to the input buffer. -/
theorem chunkifyGo_flatten (f : Nat) : ∀ n b, List.length b ≤ f → 1 ≤ n →
    (chunkifyGo f n b).flatten = b := by
  induction f with
  | zero =>
    intro n b hb _
    have hbnil : b = [] := List.eq_nil_of_length_eq_zero (Nat.le_zero.mp hb)
    subst hbnil
    rfl
  | succ f ih =>
    intro n b hb hn
    cases b with
    | nil => rfl
    | cons a tl =>
      have hstep : chunkifyGo (f + 1) n (a :: tl)
          = (a :: tl).take n :: chunkifyGo f n ((a :: tl).drop n) := rfl
      rw [hstep, List.flatten_cons]
      rw [ih n ((a :: tl).drop n)
        (by simp only [List.length_drop, List.length_cons] at *; omega) hn]
      exact List.take_append_drop n (a :: tl)

/-- Every slice is at most the chunk size long. -/
theorem chunkifyGo_length_le (f : Nat) : ∀ n b c, c ∈ chunkifyGo f n b →
    List.length c ≤ n := by
  induction f with
  | zero =>
    intro n b c hc
    simp [chunkifyGo] at hc
  | succ f ih =>
    intro n b c hc
    cases b with
    | nil => simp [chunkifyGo_nil] at hc
    | cons a tl =>
      have hstep : chunkifyGo (f + 1) n (a :: tl)
          = (a :: tl).take n :: chunkifyGo f n ((a :: tl).drop n) := rfl
      rw [hstep] at hc
      rcases List.mem_cons.mp hc with h | h
      · subst h
        exact List.length_take_le n (a :: tl)
      · exact ih n ((a :: tl).drop n) c h

/-- Every slice except possibly the last is exactly the chunk size
long. -/
theorem chunkifyGo_dropLast_length (f : Nat) : ∀ n b c, 1 ≤ n → List.length b ≤ f →
    c ∈ (chunkifyGo f n b).dropLast → List.length c = n := by
  induction f with
  | zero =>
    intro n b c _ _ hc
    simp [chunkifyGo] at hc
  | succ f ih =>
    intro n b c hn hb hc
    cases b with
    | nil => simp [chunkifyGo_nil] at hc
    | cons a tl =>
      have hstep : chunkifyGo (f + 1) n (a :: tl)
          = (a :: tl).take n :: chunkifyGo f n ((a :: tl).drop n) := rfl
      rw [hstep] at hc
      by_cases hd : (a :: tl).drop n = []
      · rw [hd, chunkifyGo_nil] at hc
        simp at hc
      · have hlt : n < (a :: tl).length := by
          by_contra hcon
          exact hd (List.drop_eq_nil_of_le (Nat.le_of_not_lt hcon))
        have hrest : chunkifyGo f n ((a :: tl).drop n) ≠ [] := by
          cases f with
          | zero =>
            exfalso
            simp only [List.length_cons] at hb
            have : tl.length = 0 := by omega
            simp only [List.length_cons, this] at hlt
            omega
          | succ f' =>
            cases hdrop : (a :: tl).drop n with
            | nil => exact absurd hdrop hd
            | cons x xs => simp [chunkifyGo]
        cases hrest' : chunkifyGo f n ((a :: tl).drop n) with
        | nil => exact absurd hrest' hrest
        | cons r rs =>
          rw [hrest', List.dropLast_cons₂] at hc
          rcases List.mem_cons.mp hc with h | h
          · subst h
            simp only [List.length_take]
            omega
          · rw [← hrest'] at h
            exact ih n ((a :: tl).drop n) c hn
              (by simp only [List.length_drop, List.length_cons] at *; omega) h

/-- C8 counterexample: in batch mode `process` returns the input buffer
itself (the raw buffer, over which `send` then iterates byte by byte),
not the single-element sequence `[b]` the claim describes. -/
theorem process_batch_not_wrapped :
    DataHandler.process "batch" 4 [1, 2] = .bytes [1, 2]
    ∧ ProcessResult.bytes [1, 2] ≠ ProcessResult.chunkList [[1, 2]] := by
  exact ⟨rfl, by decide⟩

/-- C8 amended: in batch mode `process` returns the input byte sequence
unchanged and unwrapped; in streaming mode with chunk size n ≥ 1 it
returns the ordered slices, whose concatenation is the input, whose
lengths sum to the input length, with every slice except possibly the
last of length exactly n and every slice of length at most n. -/
theorem process_amended :
    (∀ n b, DataHandler.process "batch" n b = .bytes b)
    ∧ (∀ n b, 1 ≤ n →
        DataHandler.process "stream" n b = .chunkList (chunkify n b)
        ∧ (chunkify n b).flatten = b
        ∧ ((chunkify n b).map List.length).sum = b.length
        ∧ (∀ c ∈ (chunkify n b).dropLast, c.length = n)
        ∧ (∀ c ∈ chunkify n b, c.length ≤ n)) := by
  refine ⟨fun n b => rfl, fun n b hn => ?_⟩
  have hflat : (chunkify n b).flatten = b := chunkifyGo_flatten b.length n b le_rfl hn
  refine ⟨rfl, hflat, ?_,
    fun c hc => chunkifyGo_dropLast_length b.length n b c hn le_rfl hc,
    fun c hc => chunkifyGo_length_le b.length n b c hc⟩
  calc ((chunkify n b).map List.length).sum
      = (chunkify n b).flatten.length := (List.length_flatten _).symm
    _ = b.length := by rw [hflat]

/-- C8 witness: both modes evaluated on a 3-byte buffer with chunk
size 2. -/
theorem process_amended_witness :
    DataHandler.process "batch" 2 [1, 2, 3] = .bytes [1, 2, 3]
    ∧ DataHandler.process "stream" 2 [1, 2, 3] = .chunkList [[1, 2], [3]]
    ∧ ([[1, 2], [3]] : List (List Nat)).flatten = [1, 2, 3] := by
  obtain ⟨h1, h2⟩ := process_amended
  have h3 := h2 2 [1, 2, 3] (by decide)
  refine ⟨h1 2 [1, 2, 3], ?_, by decide⟩
  have hc : chunkify 2 [1, 2, 3] = [[1, 2], [3]] := by decide
  rw [h3.1, hc]
